import Mathlib

/-!
Verification of the ATX bench PSU firmware (src/main.cpp): the median-filter
sampler `analogReadMedianFiltered`, the linear voltage/current scalers from
`loop`, and the float-to-7-segment renderer `displayFloat`, shallowly
embedded over lists and rationals.
-/

set_option maxRecDepth 4000

/-- Compile-time constants from main.cpp (SAMPLE_CNT, VOLT_SCALE, CURRENT_SCALE
and the literals 5.0f, 1023.0f, 0.1f appearing in `loop`). -/
def SAMPLE_CNT : ℕ := 250

def VOLT_SCALE : ℚ := 60

def CURRENT_SCALE : ℚ := 1 / 5

def AMP_GAIN : ℚ := 5

def ADC_FULL_SCALE : ℚ := 1023

def SHUNT_RESISTANCE : ℚ := 1 / 10

/-- One `setDigit` write to the display driver: digit position, the byte value
passed (the code casts `str[i] - '0'` to `byte`), and the decimal-point flag. -/
structure DigitAssignment where
  digit : ℤ
  value : ℕ
  decimal : Bool
  deriving DecidableEq, Repr

/-- The scan `for(j = 1; j < i; j++)` of `analogReadMedianFiltered` together
with the shift-insert: walking with `prev = sortedValues[j-1]` along the rest
of the sorted prefix, the new value is inserted at the first position `j` with
`sortedValues[j-1] <= value && sortedValues[j] >= value`, or at the end. -/
def insertLoop (prev : ℤ) (rest : List ℤ) (v : ℤ) : List ℤ :=
  match rest with
  | [] => [v]
  | b :: bs => if prev ≤ v ∧ v ≤ b then v :: b :: bs else b :: insertLoop b bs v

/-- One iteration of the sampling loop body of `analogReadMedianFiltered`:
insert the new reading into the sorted prefix (`j = 0` when the prefix is
empty or the value is below its head, otherwise the forward scan). -/
def insertValue (l : List ℤ) (v : ℤ) : List ℤ :=
  match l with
  | [] => [v]
  | a :: rest => if v < a then v :: a :: rest else a :: insertLoop a rest v

/-- The full per-sample insertion pass of `analogReadMedianFiltered`, applied
to the sequence of raw `analogRead` results. -/
def sortInsertion (samples : List ℤ) : List ℤ :=
  samples.foldl insertValue []

/-- `analogReadMedianFiltered(pin, numSamples)` from main.cpp, with the raw
`analogRead` results made explicit as the input list: build the sorted window
by repeated shift-insert, then accumulate `sortedValues[i]` for
`i = numSamples/2-5 .. numSamples/2+5-1` and divide by 10. -/
def analogReadMedianFiltered (samples : List ℤ) : ℚ :=
  let n := samples.length
  let sorted := sortInsertion samples
  ((((sorted.drop (n / 2 - 5)).take (n / 2 + 5 - (n / 2 - 5))).map
    (fun v => (v : ℚ))).sum) / 10

/-- `scaledVoltAvg` from `loop`: `VOLT_SCALE * (voltAvg / 1023.0f)`. -/
def scaledVoltage (est : ℚ) : ℚ := VOLT_SCALE * (est / ADC_FULL_SCALE)

/-- `scaledCurrentAvg` from `loop`:
`(CURRENT_SCALE * (5.0f * (shuntVoltAvg / 1023.0f))) / 0.1f`. -/
def scaledCurrent (est : ℚ) : ℚ :=
  (CURRENT_SCALE * (AMP_GAIN * (est / ADC_FULL_SCALE))) / SHUNT_RESISTANCE

/-- The byte handed to `setDigit`: the code computes `str[i] - '0'` as an
`int` and casts it to `byte`, i.e. reduces it modulo 256. -/
def byteOfChar (c : Char) : ℕ := (((c.toNat : ℤ) - 48) % 256).toNat

/-- Decimal digits of `n`, least significant first, with explicit fuel so the
recursion is structural. -/
def digitsRevAux : ℕ → ℕ → List ℕ
  | 0, _ => []
  | fuel + 1, n => if n = 0 then [] else n % 10 :: digitsRevAux fuel (n / 10)

/-- Decimal digit characters of `m`, most significant first, as printed by
`dtostrf` for the integer part. -/
def natToChars (m : ℕ) : List Char :=
  if m = 0 then ['0'] else ((digitsRevAux m m).map Nat.digitChar).reverse

/-- Magnitude of `q` in hundredths after round-to-nearest at two decimals, as
performed by `dtostrf(val, 4, 2, str)`. -/
def fmtMag (q : ℚ) : ℕ := (⌊|q| * 100 + 1 / 2⌋).toNat

/-- The string produced by `dtostrf(val, 4, 2, str)`: optional sign, the
decimal digits of the integer part, a point, and two fractional digits,
left-padded with spaces up to width 4 (the padding is vacuous here since the
body is always at least 4 characters). -/
def fmtFixed2 (q : ℚ) : List Char :=
  let mag := fmtMag q
  let s := (if q < 0 then ['-'] else []) ++ natToChars (mag / 100) ++
    ['.', Nat.digitChar (mag / 10 % 10), Nat.digitChar (mag % 10)]
  List.replicate (4 - s.length) (Char.ofNat 32) ++ s

/-- The backwards character walk of `displayFloat`, on the reversed formatted
string: a '.' only sets the pending decimal flag, any other character is sent
to `setDigit` at the current cursor with the pending flag, which is then
cleared, and the cursor advances. -/
def renderDigits : List Char → ℤ → Bool → List DigitAssignment
  | [], _, _ => []
  | c :: rest, digit, setDecimal =>
    if c = '.' then renderDigits rest digit true
    else DigitAssignment.mk digit (byteOfChar c) setDecimal ::
      renderDigits rest (digit + 1) false

/-- `displayFloat(val, offset)` from main.cpp, returning the sequence of
`setDigit` calls it issues: format to two decimals, and only when
`0 < valLen && valLen <= 5` walk the string backwards from `offset`. -/
def displayFloat (val : ℚ) (offset : ℤ) : List DigitAssignment :=
  let str := fmtFixed2 val
  let valLen := str.length
  if 0 < valLen ∧ valLen ≤ 5 then renderDigits str.reverse offset false else []

/-- One iteration of `loop`: median-filtered reads on both channels, the two
linear scalings, and the two `displayFloat` render passes at offsets 0 and 4. -/
def loopDisplays (voltSamples ampSamples : List ℤ) :
    List DigitAssignment × List DigitAssignment :=
  (displayFloat (scaledVoltage (analogReadMedianFiltered voltSamples)) 0,
   displayFloat (scaledCurrent (analogReadMedianFiltered ampSamples)) 4)

/-- Per-channel state of the carry-over windowed sampler: running accumulator
and modular call counter. -/
structure CarryState where
  acc : ℚ
  cnt : ℕ
  deriving DecidableEq, Repr

/-- Modelled from the spec: the carry-over/exponential windowed sampler
variant is absent from src/main.cpp (only the median-filter variant survives
there). Per spec section 4.1 it maintains a per-channel accumulator across
successive calls, emits an estimate only on every SAMPLE_CNT-th call via a
modular counter (otherwise emitting nothing), and resets the accumulator to 0
immediately after an emission. -/
def carryStep (n : ℕ) (s : CarryState) (sample : ℚ) : CarryState × Option ℚ :=
  let acc := s.acc + sample
  let cnt := (s.cnt + 1) % n
  if cnt = 0 then (CarryState.mk 0 0, some (acc / n))
  else (CarryState.mk acc cnt, none)

/-- The trace of successive carry-over sampler calls: for each incoming sample
the state after the call paired with the emitted estimate, if any. -/
def carryTrace (n : ℕ) (s : CarryState) : List ℚ → List (CarryState × Option ℚ)
  | [] => []
  | x :: xs => carryStep n s x :: carryTrace n (carryStep n s x).1 xs

/-! Concrete evaluations of the formatter and renderer, shared by several of
the claim proofs below. -/

theorem fmtMag_forty : fmtMag 40 = 4000 := by norm_num [fmtMag]; decide

theorem fmtMag_hundred : fmtMag 100 = 10000 := by norm_num [fmtMag]; decide

theorem fmtMag_neg123 : fmtMag (-(123 / 100)) = 123 := by
  rw [fmtMag, abs_neg, abs_of_nonneg (by norm_num : (0 : ℚ) ≤ 123 / 100)]
  norm_num
  decide

theorem fmtMag_1245 : fmtMag (1245 / 100) = 1245 := by
  rw [fmtMag, abs_of_nonneg (by norm_num : (0 : ℚ) ≤ 1245 / 100)]
  norm_num
  decide

theorem fmtFixed2_forty : fmtFixed2 40 = ['4', '0', '.', '0', '0'] := by
  rw [fmtFixed2, fmtMag_forty, if_neg (by norm_num : ¬((40 : ℚ) < 0))]
  decide

theorem fmtFixed2_hundred : fmtFixed2 100 = ['1', '0', '0', '.', '0', '0'] := by
  rw [fmtFixed2, fmtMag_hundred, if_neg (by norm_num : ¬((100 : ℚ) < 0))]
  decide

theorem fmtFixed2_neg123 : fmtFixed2 (-(123 / 100)) = ['-', '1', '.', '2', '3'] := by
  rw [fmtFixed2, fmtMag_neg123, if_pos (by norm_num : (-(123 / 100) : ℚ) < 0)]
  decide

theorem fmtFixed2_1245 : fmtFixed2 (1245 / 100) = ['1', '2', '.', '4', '5'] := by
  rw [fmtFixed2, fmtMag_1245, if_neg (by norm_num : ¬((1245 / 100 : ℚ) < 0))]
  decide

theorem displayFloat_forty : displayFloat 40 0 =
    [DigitAssignment.mk 0 0 false, DigitAssignment.mk 1 0 false,
     DigitAssignment.mk 2 0 true, DigitAssignment.mk 3 4 false] := by
  rw [displayFloat, fmtFixed2_forty]
  decide

theorem displayFloat_neg123 : displayFloat (-(123 / 100)) 0 =
    [DigitAssignment.mk 0 3 false, DigitAssignment.mk 1 2 false,
     DigitAssignment.mk 2 1 true, DigitAssignment.mk 3 253 false] := by
  rw [displayFloat, fmtFixed2_neg123]
  decide

/-! Correctness of the shift-insert pass: it keeps the window sorted and is a
permutation, hence agrees with Mathlib's reference `List.insertionSort`. -/

theorem insertLoop_props (rest : List ℤ) : ∀ prev v : ℤ, prev ≤ v →
    (∀ x ∈ rest, prev ≤ x) → rest.Sorted (fun a b => a ≤ b) →
    (insertLoop prev rest v).Sorted (fun a b => a ≤ b) ∧
    (∀ x ∈ insertLoop prev rest v, prev ≤ x) ∧
    List.Perm (insertLoop prev rest v) (v :: rest) := by
  induction rest with
  | nil =>
    intro prev v hpv _ _
    refine ⟨by simp [insertLoop], ?_, by simp [insertLoop]⟩
    intro x hx
    simp only [insertLoop, List.mem_singleton] at hx
    exact hx ▸ hpv
  | cons b bs ih =>
    intro prev v hpv hall hsort
    have hb : prev ≤ b := hall b (by simp)
    have hbs := List.sorted_cons.mp hsort
    by_cases hcond : prev ≤ v ∧ v ≤ b
    · rw [insertLoop, if_pos hcond]
      refine ⟨List.sorted_cons.mpr ⟨?_, hsort⟩, ?_, List.Perm.refl _⟩
      · intro x hx
        rcases List.mem_cons.mp hx with rfl | hx2
        · exact hcond.2
        · exact le_trans hcond.2 (hbs.1 x hx2)
      · intro x hx
        rcases List.mem_cons.mp hx with rfl | hx2
        · exact hpv
        · rcases List.mem_cons.mp hx2 with rfl | hx3
          · exact hb
          · exact le_trans hb (hbs.1 x hx3)
    · rw [insertLoop, if_neg hcond]
      have hvb : b ≤ v := by
        rcases not_and_or.mp hcond with h1 | h2
        · exact absurd hpv h1
        · exact le_of_not_le h2
      obtain ⟨hs, hge, hperm⟩ := ih b v hvb hbs.1 hbs.2
      refine ⟨List.sorted_cons.mpr ⟨hge, hs⟩, ?_, ?_⟩
      · intro x hx
        rcases List.mem_cons.mp hx with rfl | hx2
        · exact hb
        · exact le_trans hb (hge x hx2)
      · exact (hperm.cons b).trans (List.Perm.swap v b bs)

theorem insertValue_props (l : List ℤ) (v : ℤ)
    (hs : l.Sorted (fun a b => a ≤ b)) :
    (insertValue l v).Sorted (fun a b => a ≤ b) ∧ List.Perm (insertValue l v) (v :: l) := by
  match l with
  | [] => exact ⟨by simp [insertValue], by simp [insertValue]⟩
  | a :: rest =>
    have hc := List.sorted_cons.mp hs
    by_cases hva : v < a
    · rw [insertValue, if_pos hva]
      refine ⟨List.sorted_cons.mpr ⟨?_, hs⟩, List.Perm.refl _⟩
      intro x hx
      rcases List.mem_cons.mp hx with rfl | hx2
      · exact le_of_lt hva
      · exact le_trans (le_of_lt hva) (hc.1 x hx2)
    · have hav : a ≤ v := le_of_not_lt hva
      obtain ⟨hsorted, hge, hperm⟩ := insertLoop_props rest a v hav hc.1 hc.2
      rw [insertValue, if_neg hva]
      exact ⟨List.sorted_cons.mpr ⟨hge, hsorted⟩,
        (hperm.cons a).trans (List.Perm.swap v a rest)⟩

theorem foldl_insertValue_props (l : List ℤ) : ∀ acc : List ℤ,
    acc.Sorted (fun a b => a ≤ b) →
    (List.foldl insertValue acc l).Sorted (fun a b => a ≤ b) ∧
    List.Perm (List.foldl insertValue acc l) (acc ++ l) := by
  induction l with
  | nil => intro acc h; exact ⟨h, by simp⟩
  | cons x xs ih =>
    intro acc h
    obtain ⟨hs1, hp1⟩ := insertValue_props acc x h
    obtain ⟨hs2, hp2⟩ := ih (insertValue acc x) hs1
    refine ⟨by simpa using hs2, ?_⟩
    rw [List.foldl_cons]
    exact hp2.trans ((hp1.append_right xs).trans List.perm_middle.symm)

theorem sortInsertion_sorted (samples : List ℤ) :
    (sortInsertion samples).Sorted (fun a b => a ≤ b) :=
  (foldl_insertValue_props samples [] (by simp)).1

theorem sortInsertion_perm (samples : List ℤ) : List.Perm (sortInsertion samples) samples := by
  simpa [sortInsertion] using (foldl_insertValue_props samples [] (by simp)).2

theorem sortInsertion_eq_insertionSort (samples : List ℤ) :
    sortInsertion samples = List.insertionSort (fun a b => a ≤ b) samples :=
  List.eq_of_perm_of_sorted
    ((sortInsertion_perm samples).trans
      (List.perm_insertionSort (fun a b => a ≤ b) samples).symm)
    (sortInsertion_sorted samples)
    (List.sorted_insertionSort (fun a b => a ≤ b) samples)

/-! Generic structure of the backwards walk of `displayFloat`. -/

theorem renderDigits_values (s : List Char) : ∀ (d : ℤ) (b : Bool),
    (renderDigits s d b).map (fun a => a.value) =
      (s.filter (fun c => c ≠ '.')).map byteOfChar := by
  induction s with
  | nil => intro d b; simp [renderDigits]
  | cons c rest ih =>
    intro d b
    by_cases hc : c = '.'
    · subst hc
      simp [renderDigits, ih]
    · simp [renderDigits, hc, ih]

theorem renderDigits_digits (s : List Char) : ∀ (d : ℤ) (b : Bool),
    (renderDigits s d b).map (fun a => a.digit) =
      (List.range (s.filter (fun c => c ≠ '.')).length).map
        (fun k : ℕ => d + (k : ℤ)) := by
  induction s with
  | nil => intro d b; simp [renderDigits]
  | cons c rest ih =>
    intro d b
    by_cases hc : c = '.'
    · subst hc
      simp [renderDigits, ih]
    · have hfl : ((c :: rest).filter (fun x => x ≠ '.')).length
          = (rest.filter (fun x => x ≠ '.')).length + 1 := by
        simp [List.filter_cons, hc]
      rw [renderDigits, if_neg hc, List.map_cons, hfl, List.range_succ_eq_map,
        List.map_cons, List.map_map, ih (d + 1) false]
      congr 1
      · simp
      · apply List.map_congr_left
        intro k hk
        simp only [Function.comp_apply]
        push_cast
        ring

theorem renderDigits_flags (s : List Char) : ∀ (d : ℤ) (b : Bool),
    (renderDigits s d b).map (fun a => a.decimal) =
      ((s.zip (b :: s.map (fun c => decide (c = '.')))).filter
        (fun p => p.1 ≠ '.')).map Prod.snd := by
  induction s with
  | nil => intro d b; simp [renderDigits]
  | cons c rest ih =>
    intro d b
    by_cases hc : c = '.'
    · subst hc
      simp [renderDigits, ih]
    · simp [renderDigits, hc, ih]

/-! Emission pattern of the carry-over sampler. -/

theorem carryStep_cnt (n : ℕ) (s : CarryState) (x : ℚ) :
    (carryStep n s x).1.cnt = (s.cnt + 1) % n := by
  by_cases h : (s.cnt + 1) % n = 0 <;> simp [carryStep, h]

theorem carryStep_isSome (n : ℕ) (s : CarryState) (x : ℚ) :
    (carryStep n s x).2.isSome = decide ((s.cnt + 1) % n = 0) := by
  by_cases h : (s.cnt + 1) % n = 0 <;> simp [carryStep, h]

theorem carryStep_emit_acc (n : ℕ) (s : CarryState) (x : ℚ)
    (h : (carryStep n s x).2.isSome = true) : (carryStep n s x).1.acc = 0 := by
  by_cases hc : (s.cnt + 1) % n = 0
  · simp [carryStep, hc]
  · simp [carryStep, hc] at h

theorem carryTrace_isSome (xs : List ℚ) : ∀ s : CarryState,
    (carryTrace 5 s xs).map (fun r => r.2.isSome) =
      (List.range xs.length).map (fun k : ℕ => decide ((s.cnt + k + 1) % 5 = 0)) := by
  induction xs with
  | nil => intro s; simp [carryTrace]
  | cons x xs ih =>
    intro s
    rw [carryTrace, List.map_cons, List.length_cons, List.range_succ_eq_map,
      List.map_cons, List.map_map, ih (carryStep 5 s x).1]
    congr 1
    · rw [carryStep_isSome]
    · apply List.map_congr_left
      intro k hk
      simp only [Function.comp_apply, carryStep_cnt]
      rw [decide_eq_decide]
      omega

theorem carryTrace_emit_acc (xs : List ℚ) : ∀ (s : CarryState)
    (r : CarryState × Option ℚ), r ∈ carryTrace 5 s xs →
    r.2.isSome = true → r.1.acc = 0 := by
  induction xs with
  | nil => intro s r h; simp [carryTrace] at h
  | cons x xs ih =>
    intro s r h hsome
    rcases List.mem_cons.mp h with rfl | h2
    · exact carryStep_emit_acc 5 s x hsome
    · exact ih _ r h2 hsome

/-! Digit characters are never the decimal point, and their byte value is the
digit itself. -/

theorem digitChar_facts (d : ℕ) (h : d < 10) :
    Nat.digitChar d ≠ '.' ∧ byteOfChar (Nat.digitChar d) = d := by
  interval_cases d <;> exact ⟨by decide, by decide⟩

theorem digitsRevAux_lt (f : ℕ) : ∀ n d, d ∈ digitsRevAux f n → d < 10 := by
  induction f with
  | zero => intro n d h; simp [digitsRevAux] at h
  | succ f ih =>
    intro n d h
    rw [digitsRevAux] at h
    by_cases hn : n = 0
    · simp [hn] at h
    · rw [if_neg hn] at h
      rcases List.mem_cons.mp h with rfl | h2
      · exact Nat.mod_lt _ (by norm_num)
      · exact ih _ _ h2

theorem natToChars_ne_dot (m : ℕ) : ∀ c ∈ natToChars m, c ≠ '.' := by
  intro c hc
  rw [natToChars] at hc
  by_cases hm : m = 0
  · rw [if_pos hm] at hc
    simp only [List.mem_singleton] at hc
    subst hc
    decide
  · rw [if_neg hm, List.mem_reverse] at hc
    rcases List.mem_map.mp hc with ⟨d, hd, rfl⟩
    exact (digitChar_facts d (digitsRevAux_lt m m d hd)).1

theorem natToChars_length_pos (m : ℕ) : 1 ≤ (natToChars m).length := by
  rw [natToChars]
  by_cases hm : m = 0
  · simp [hm]
  · rw [if_neg hm]
    simp only [List.length_reverse, List.length_map]
    cases m with
    | zero => exact absurd rfl hm
    | succ k =>
      rw [digitsRevAux, if_neg hm]
      simp

/-! The claims. -/

/-- Claim C1: for every sequence of W raw ADC samples (W = SAMPLE_CNT = 250)
fed to analogReadMedianFiltered, the returned estimate equals the arithmetic
mean of the 10 elements at sorted-rank indices [W/2-5, W/2+5) = [120, 130) of
the fully sorted input sequence: their sum divided by 10. -/
theorem claim_c1_median_of_window (samples : List ℤ)
    (h : samples.length = SAMPLE_CNT) :
    analogReadMedianFiltered samples =
      ((((List.insertionSort (fun a b => a ≤ b) samples).drop 120).take 10).map
        (fun v => (v : ℚ))).sum / 10 := by
  simp only [analogReadMedianFiltered, sortInsertion_eq_insertionSort, h]
  norm_num [SAMPLE_CNT]

theorem claim_c1_witness :
    (List.replicate 250 (500 : ℤ)).length = SAMPLE_CNT ∧
    analogReadMedianFiltered (List.replicate 250 500) =
      ((((List.insertionSort (fun a b => a ≤ b)
        (List.replicate 250 (500 : ℤ))).drop 120).take 10).map
        (fun v => (v : ℚ))).sum / 10 :=
  ⟨by simp [SAMPLE_CNT], claim_c1_median_of_window _ (by simp [SAMPLE_CNT])⟩

/-- Claim C2: the per-sample shift-insert loop, iterated over any input
sequence, leaves the window in exactly the ascending order a standard stable
sort produces, and the first element is inserted without comparisons. -/
theorem claim_c2_insertion_refines_stable_sort :
    (∀ v : ℤ, insertValue [] v = [v]) ∧
    ∀ samples : List ℤ,
      sortInsertion samples = List.insertionSort (fun a b => a ≤ b) samples :=
  ⟨fun _ => rfl, sortInsertion_eq_insertionSort⟩

/-- Claim C3: whenever the 2-decimal formatted string of the value is longer
than 5 characters, displayFloat is a silent no-op, issuing no setDigit call. -/
theorem claim_c3_overflow_noop (val : ℚ) (offset : ℤ)
    (h : 5 < (fmtFixed2 val).length) : displayFloat val offset = [] := by
  simp only [displayFloat]
  rw [if_neg]
  omega

theorem claim_c3_witness :
    5 < (fmtFixed2 100).length ∧ displayFloat 100 0 = [] :=
  ⟨by rw [fmtFixed2_hundred]; decide,
   claim_c3_overflow_noop 100 0 (by rw [fmtFixed2_hundred]; decide)⟩

/-- Claim C5: a raw voltage estimate of 682 with full scale 1023 and
VOLT_SCALE = 60 scales to exactly 40, and rendering it at offset 0 produces
assignments at positions 0, 1, 2, 3 spelling "40.00" (digits 0, 0, 0, 4 in
emission order), with the decimal flag true exactly on position 2. -/
theorem claim_c5_volt_scenario :
    scaledVoltage 682 = 40 ∧
    displayFloat (scaledVoltage 682) 0 =
      [DigitAssignment.mk 0 0 false, DigitAssignment.mk 1 0 false,
       DigitAssignment.mk 2 0 true, DigitAssignment.mk 3 4 false] := by
  have h : scaledVoltage 682 = 40 := by
    norm_num [scaledVoltage, VOLT_SCALE, ADC_FULL_SCALE]
  exact ⟨h, by rw [h]; exact displayFloat_forty⟩

/-- Claim C6: the current channel scaling is exactly
(CURRENT_SCALE * (AMP_GAIN * (estimate / ADC_FULL_SCALE))) / SHUNT_RESISTANCE
with CURRENT_SCALE = 0.2, AMP_GAIN = 5, ADC_FULL_SCALE = 1023 and
SHUNT_RESISTANCE = 0.1, and the loop applies no clamping or other transform
before handing the scaled value to the renderer. -/
theorem claim_c6_current_scaling :
    CURRENT_SCALE = 1 / 5 ∧ AMP_GAIN = 5 ∧ ADC_FULL_SCALE = 1023 ∧
    SHUNT_RESISTANCE = 1 / 10 ∧
    (∀ est : ℚ, scaledCurrent est =
      (CURRENT_SCALE * (AMP_GAIN * (est / ADC_FULL_SCALE))) / SHUNT_RESISTANCE) ∧
    ∀ voltSamples ampSamples : List ℤ,
      (loopDisplays voltSamples ampSamples).2 =
        displayFloat (scaledCurrent (analogReadMedianFiltered ampSamples)) 4 :=
  ⟨rfl, rfl, rfl, rfl, fun _ => rfl, fun _ _ => rfl⟩

/-- Claim C7: both scaling transforms are pure functions with scale(0) = 0,
and each is monotonically increasing in its input. -/
theorem claim_c7_scaling_monotone :
    scaledVoltage 0 = 0 ∧ scaledCurrent 0 = 0 ∧
    (∀ a b : ℚ, a ≤ b → scaledVoltage a ≤ scaledVoltage b) ∧
    (∀ a b : ℚ, a ≤ b → scaledCurrent a ≤ scaledCurrent b) := by
  have hv : ∀ x : ℚ, scaledVoltage x = (60 / 1023) * x := by
    intro x
    norm_num [scaledVoltage, VOLT_SCALE, ADC_FULL_SCALE]
    ring
  have hcur : ∀ x : ℚ, scaledCurrent x = (10 / 1023) * x := by
    intro x
    norm_num [scaledCurrent, CURRENT_SCALE, AMP_GAIN, ADC_FULL_SCALE,
      SHUNT_RESISTANCE]
    ring
  refine ⟨by rw [hv]; ring, by rw [hcur]; ring, ?_, ?_⟩
  · intro a b h
    rw [hv a, hv b]
    exact mul_le_mul_of_nonneg_left h (by norm_num)
  · intro a b h
    rw [hcur a, hcur b]
    exact mul_le_mul_of_nonneg_left h (by norm_num)

theorem claim_c7_witness :
    scaledVoltage 1 ≤ scaledVoltage 2 ∧ scaledCurrent 1 ≤ scaledCurrent 2 :=
  ⟨claim_c7_scaling_monotone.2.2.1 1 2 (by norm_num),
   claim_c7_scaling_monotone.2.2.2 1 2 (by norm_num)⟩

/-- Claim C9: the negative value -1.23 formats to "-1.23" (5 characters), so
it passes the length check, and displayFloat then calls setDigit for the sign
character with byte value (45 - 48) mod 256 = 253, outside [0, 9]. -/
theorem claim_c9_negative_byte_escape :
    (fmtFixed2 (-(123 / 100))).length = 5 ∧
    displayFloat (-(123 / 100)) 0 =
      [DigitAssignment.mk 0 3 false, DigitAssignment.mk 1 2 false,
       DigitAssignment.mk 2 1 true, DigitAssignment.mk 3 253 false] ∧
    ∃ a ∈ displayFloat (-(123 / 100)) 0, 9 < a.value :=
  ⟨by rw [fmtFixed2_neg123]; decide,
   displayFloat_neg123,
   DigitAssignment.mk 3 253 false,
   by rw [displayFloat_neg123]; decide,
   by decide⟩

/-- Claim C4: displayFloat walks the formatted string right to left: each
non-point character yields one DigitAssignment whose value is the character
code minus '0' (as a byte); the cursor starts at the offset and increments
only on non-point characters, so emitted positions are consecutive from the
offset; and a '.' consumes no cursor slot, instead setting a pending decimal
flag carried to exactly the next emitted digit and cleared after use, so an
emitted digit's flag is the initial flag for the first character and
otherwise records whether the immediately preceding scanned character was a
point. -/
theorem claim_c4_backwards_walk :
    (∀ (q : ℚ) (o : ℤ), displayFloat q o =
      if 0 < (fmtFixed2 q).length ∧ (fmtFixed2 q).length ≤ 5 then
        renderDigits (fmtFixed2 q).reverse o false
      else []) ∧
    ∀ (s : List Char) (d : ℤ) (b : Bool),
      ((renderDigits s d b).map (fun a => a.value) =
        (s.filter (fun c => c ≠ '.')).map byteOfChar) ∧
      ((renderDigits s d b).map (fun a => a.digit) =
        (List.range (s.filter (fun c => c ≠ '.')).length).map
          (fun k : ℕ => d + (k : ℤ))) ∧
      ((renderDigits s d b).map (fun a => a.decimal) =
        ((s.zip (b :: s.map (fun c => decide (c = '.')))).filter
          (fun p => p.1 ≠ '.')).map Prod.snd) :=
  ⟨fun _ _ => rfl, fun s d b =>
    ⟨renderDigits_values s d b, renderDigits_digits s d b,
     renderDigits_flags s d b⟩⟩

/-- Claim C8: the carry-over windowed sampler with SAMPLE_CNT = 5, started
from a zero accumulator, emits an estimate exactly on every 5th call (nothing
on the others), and its accumulator is 0 immediately after every emission. -/
theorem claim_c8_emission_gating (samples : List ℚ) :
    ((carryTrace 5 (CarryState.mk 0 0) samples).map (fun r => r.2.isSome) =
      (List.range samples.length).map (fun k : ℕ => decide ((k + 1) % 5 = 0))) ∧
    ∀ r ∈ carryTrace 5 (CarryState.mk 0 0) samples,
      r.2.isSome = true → r.1.acc = 0 := by
  refine ⟨?_, fun r hr hs => carryTrace_emit_acc samples _ r hr hs⟩
  have h := carryTrace_isSome samples (CarryState.mk 0 0)
  simpa using h

theorem claim_c8_witness :
    ((carryTrace 5 (CarryState.mk 0 0) [0, 0, 0, 0, 0]).map
      (fun r => r.2.isSome) = [false, false, false, false, true]) ∧
    ((CarryState.mk 0 0, some (0 : ℚ)) : CarryState × Option ℚ).1.acc = 0 :=
  ⟨((claim_c8_emission_gating [0, 0, 0, 0, 0]).1).trans (by decide),
   (claim_c8_emission_gating [0, 0, 0, 0, 0]).2 (CarryState.mk 0 0, some 0)
     (by simp [carryTrace, carryStep]) (by simp)⟩

theorem fmtFixed2_of_nonneg (q : ℚ) (hq : 0 ≤ q) :
    fmtFixed2 q = natToChars (fmtMag q / 100) ++
      ['.', Nat.digitChar (fmtMag q / 10 % 10), Nat.digitChar (fmtMag q % 10)] := by
  have hneg : ¬ q < 0 := not_lt.mpr hq
  have h1 := natToChars_length_pos (fmtMag q / 100)
  simp only [fmtFixed2, if_neg hneg, List.nil_append]
  have h0 : 4 - (natToChars (fmtMag q / 100) ++
      ['.', Nat.digitChar (fmtMag q / 10 % 10),
       Nat.digitChar (fmtMag q % 10)]).length = 0 := by
    simp only [List.length_append, List.length_cons, List.length_nil]
    omega
  rw [h0, List.replicate_zero, List.nil_append]

/-- Claim C10: for every nonnegative value whose formatted string fits the
display (length 4 or 5), displayFloat emits exactly one assignment with the
decimal flag true, at position offset + 2 (the units digit), and the two
fractional digits land at positions offset and offset + 1. -/
theorem claim_c10_decimal_position (q : ℚ) (o : ℤ) (hq : 0 ≤ q)
    (hl : (fmtFixed2 q).length = 4 ∨ (fmtFixed2 q).length = 5) :
    ((displayFloat q o).filter (fun a => a.decimal)).map (fun a => a.digit) =
      [o + 2] ∧
    (displayFloat q o).take 2 =
      [DigitAssignment.mk o (fmtMag q % 10) false,
       DigitAssignment.mk (o + 1) (fmtMag q / 10 % 10) false] := by
  have hfmt := fmtFixed2_of_nonneg q hq
  have hd0 := digitChar_facts (fmtMag q % 10) (Nat.mod_lt _ (by norm_num))
  have hd1 := digitChar_facts (fmtMag q / 10 % 10) (Nat.mod_lt _ (by norm_num))
  have hiplen : (natToChars (fmtMag q / 100)).length = 1 ∨
      (natToChars (fmtMag q / 100)).length = 2 := by
    rw [hfmt] at hl
    simp only [List.length_append, List.length_cons, List.length_nil] at hl
    omega
  rcases hiplen with h1 | h2
  · obtain ⟨c, hc⟩ := List.length_eq_one.mp h1
    have hcd : c ≠ '.' := natToChars_ne_dot _ c (by rw [hc]; simp)
    have hfmt2 : fmtFixed2 q = [c, '.', Nat.digitChar (fmtMag q / 10 % 10),
        Nat.digitChar (fmtMag q % 10)] := by rw [hfmt, hc]; rfl
    constructor
    · simp only [displayFloat, hfmt2]
      simp [renderDigits, hcd, hd0.1, hd1.1, List.filter]
      omega
    · simp only [displayFloat, hfmt2]
      simp [renderDigits, hcd, hd0.1, hd1.1, hd0.2, hd1.2, List.take]
  · obtain ⟨c1, c2, hc⟩ := List.length_eq_two.mp h2
    have hcd1 : c1 ≠ '.' := natToChars_ne_dot _ c1 (by rw [hc]; simp)
    have hcd2 : c2 ≠ '.' := natToChars_ne_dot _ c2 (by rw [hc]; simp)
    have hfmt2 : fmtFixed2 q = [c1, c2, '.', Nat.digitChar (fmtMag q / 10 % 10),
        Nat.digitChar (fmtMag q % 10)] := by rw [hfmt, hc]; rfl
    constructor
    · simp only [displayFloat, hfmt2]
      simp [renderDigits, hcd1, hcd2, hd0.1, hd1.1, List.filter]
      omega
    · simp only [displayFloat, hfmt2]
      simp [renderDigits, hcd1, hcd2, hd0.1, hd1.1, hd0.2, hd1.2, List.take]

theorem claim_c10_witness :
    (0 : ℚ) ≤ 1245 / 100 ∧
    ((fmtFixed2 (1245 / 100)).length = 4 ∨ (fmtFixed2 (1245 / 100)).length = 5) ∧
    (((displayFloat (1245 / 100) 0).filter (fun a => a.decimal)).map
      (fun a => a.digit) = [(0 : ℤ) + 2] ∧
     (displayFloat (1245 / 100) 0).take 2 =
      [DigitAssignment.mk 0 (fmtMag (1245 / 100) % 10) false,
       DigitAssignment.mk ((0 : ℤ) + 1) (fmtMag (1245 / 100) / 10 % 10) false]) :=
  ⟨by norm_num,
   Or.inr (by rw [fmtFixed2_1245]; decide),
   claim_c10_decimal_position (1245 / 100) 0 (by norm_num)
     (Or.inr (by rw [fmtFixed2_1245]; decide))⟩
